import Mathlib

/-!
# Verification of the go-term raw-mode line editor

Shallow embedding of the `term` Go package: the termios discipline
configuration, the UTF-8 decoding helpers from `unicode/utf8` that the
code calls, the `erase` display helper, and the `GetBytes` read loop,
together with theorems settling the specified properties.

Bytes are modelled as `Nat` (values < 256 in every run considered),
byte strings as `List Nat`, and the external world (terminal device and
standard input) as an explicit environment value threaded through the
model of one `GetBytes` invocation.
-/

namespace GoTerm

/-! ## Constants from the source (Linux values of the termios indices/flags) -/

def VERASE : Nat := 2
def VKILL : Nat := 3
def VEOF : Nat := 4
def VTIME : Nat := 5
def VMIN : Nat := 6
def VWERASE : Nat := 14

def ICANON : Nat := 0x2
def ECHOFLAG : Nat := 0x8
def ICRNL : Nat := 0x100

def ENOTTY : Nat := 25

def maskChar : Nat := 42
def linefeed : Nat := 10
def space : Nat := 32

/-! ## The termios discipline configuration -/

/-- The terminal discipline configuration captured and manipulated through
`unix.IoctlGetTermios` / `unix.IoctlSetTermios`: the four flag words and the
control-character table `Cc`. -/
structure Termios where
  iflag : Nat
  oflag : Nat
  cflag : Nat
  lflag : Nat
  cc : List Nat
deriving DecidableEq

/-- Go's `a &^ b` (bit clear) on natural numbers: since `a &&& b` is a
sub-mask of `a`, subtracting it clears exactly the bits of `b`. -/
def andNot (a b : Nat) : Nat := a - (a &&& b)

/-- The raw-mode configuration `GetBytes` derives from the captured one:
`Cc[VMIN] = 1`, `Cc[VTIME] = 0`, `Lflag &^= ECHO | ICANON`,
`Iflag |= ICRNL` (multi-platform variant of get.go). -/
def rawFrom (t : Termios) : Termios :=
  { t with
    cc := (t.cc.set VMIN 1).set VTIME 0
    lflag := andNot t.lflag (ECHOFLAG ||| ICANON)
    iflag := t.iflag ||| ICRNL }

/-- The control bytes `GetBytes` reads from the termios after deriving raw
mode: `vEof`, `vErase`, `vKill`, `vWerase`. -/
structure Ctrl where
  vEof : Nat
  vErase : Nat
  vKill : Nat
  vWerase : Nat
deriving DecidableEq

def ctrlOf (t : Termios) : Ctrl :=
  { vEof := t.cc.getD VEOF 0
    vErase := t.cc.getD VERASE 0
    vKill := t.cc.getD VKILL 0
    vWerase := t.cc.getD VWERASE 0 }

/-! ## Go `unicode/utf8` helpers used by the loop -/

/-- Is `b` a valid UTF-8 continuation byte? -/
def utf8cont (b : Nat) : Bool := decide (0x80 ≤ b ∧ b ≤ 0xBF)

/-- Go `utf8.DecodeRune`: first rune of `p` and the number of bytes it
occupies; `(RuneError, 0)` on empty input and `(RuneError, 1)` on invalid
or incomplete input, with the exact accept ranges of the Go table (no
overlong encodings, no surrogates, nothing above U+10FFFF). -/
def decodeRune (p : List Nat) : Nat × Nat :=
  match p with
  | [] => (0xFFFD, 0)
  | b0 :: t =>
    if b0 < 0x80 then (b0, 1)
    else if b0 < 0xC2 then (0xFFFD, 1)
    else if b0 < 0xE0 then
      match t with
      | b1 :: _ =>
        if utf8cont b1 then ((b0 - 0xC0) * 64 + (b1 - 0x80), 2) else (0xFFFD, 1)
      | [] => (0xFFFD, 1)
    else if b0 < 0xF0 then
      match t with
      | b1 :: b2 :: _ =>
        if (if b0 = 0xE0 then decide (0xA0 ≤ b1 ∧ b1 ≤ 0xBF)
            else if b0 = 0xED then decide (0x80 ≤ b1 ∧ b1 ≤ 0x9F)
            else utf8cont b1) && utf8cont b2 then
          ((b0 - 0xE0) * 4096 + (b1 - 0x80) * 64 + (b2 - 0x80), 3)
        else (0xFFFD, 1)
      | _ => (0xFFFD, 1)
    else if b0 < 0xF5 then
      match t with
      | b1 :: b2 :: b3 :: _ =>
        if (if b0 = 0xF0 then decide (0x90 ≤ b1 ∧ b1 ≤ 0xBF)
            else if b0 = 0xF4 then decide (0x80 ≤ b1 ∧ b1 ≤ 0x8F)
            else utf8cont b1) && utf8cont b2 && utf8cont b3 then
          ((b0 - 0xF0) * 262144 + (b1 - 0x80) * 4096 + (b2 - 0x80) * 64 + (b3 - 0x80), 4)
        else (0xFFFD, 1)
      | _ => (0xFFFD, 1)
    else (0xFFFD, 1)

/-- Go `utf8.RuneStart`: `b & 0xC0 != 0x80`. -/
def runeStart (b : Nat) : Bool := decide (b &&& 0xC0 ≠ 0x80)

/-- The start index `utf8.DecodeLastRune` computes by scanning back at most
`UTFMax` bytes from the end of `p` for a rune-start byte (Go clamps the
scan limit and the fallback index at 0). -/
def lastStart (p : List Nat) : Nat :=
  let e := p.length
  if e < 2 then 0
  else
    let lim := e - 4
    let idxs := (List.range (e - 1 - lim)).map (fun k => e - 2 - k)
    match idxs.find? (fun i => runeStart (p.getD i 0)) with
    | some i => i
    | none => lim - 1

/-- Go `utf8.DecodeLastRune`: the last rune of `p` and its byte length. -/
def decodeLastRune (p : List Nat) : Nat × Nat :=
  match p with
  | [] => (0xFFFD, 0)
  | _ :: _ =>
    let e := p.length
    let last := p.getD (e - 1) 0
    if last < 0x80 then (last, 1)
    else
      let start := lastStart p
      let d := decodeRune (p.drop start)
      if start + d.2 ≠ e then (0xFFFD, 1) else d

/-- Fuel-driven worker for `runeCount`; the fuel `p.length` always
suffices because `decodeRune` consumes at least one byte per step. -/
def runeCountAux : Nat → List Nat → Nat
  | 0, _ => 0
  | _ + 1, [] => 0
  | fuel + 1, b :: t => 1 + runeCountAux fuel ((b :: t).drop (decodeRune (b :: t)).2)

/-- Go `utf8.RuneCount`: number of runes in `p`, each invalid byte counting
as one `RuneError` rune. -/
def runeCount (p : List Nat) : Nat := runeCountAux p.length p

/-- Model of Go `unicode.IsGraphic` on the code points this development
exercises: printable ASCII (space through tilde), printable Latin-1
(NO-BREAK SPACE through ÿ, minus the soft hyphen, a format character),
and the replacement character U+FFFD (category So, hence graphic in Go).
Control characters and DEL are not graphic. -/
def isGraphic (r : Nat) : Bool :=
  decide ((0x20 ≤ r ∧ r ≤ 0x7E) ∨ (0xA0 ≤ r ∧ r ≤ 0xFF ∧ r ≠ 0xAD) ∨ r = 0xFFFD)

/-! ## The echo policy and the display-side helpers -/

/-- `EchoMode`: `normal` echoes the typed bytes, `none` echoes nothing,
`mask` echoes one `*` per accepted character. -/
inductive EchoMode
  | normal
  | none
  | mask
deriving DecidableEq

/-- `strconv.Itoa` restricted to naturals, as a byte list. -/
def itoa (n : Nat) : List Nat := (Nat.toDigits 10 n).map Char.toNat

/-- The cursor-back-and-erase control sequence `ESC [ x D ESC [ K`. -/
def escSeq (x : Nat) : List Nat := [0x1B, 91] ++ itoa x ++ [68, 0x1B, 91, 75]

/-- The `erase` helper of the multi-platform variant of get.go: removes the
last `n` bytes of `result` and, when echoing and the erased region spans a
positive number of runes `x`, emits the cursor-back-by-`x`/erase-to-end
sequence. Returns the new buffer and the bytes written to stdout. -/
def eraseStep (n : Nat) (result : List Nat) (echo : Bool) : List Nat × List Nat :=
  let out :=
    if echo then
      let x := runeCount (result.drop (result.length - n))
      if 0 < x then escSeq x else []
    else []
  (result.take (result.length - n), out)

/-- The `erase` helper of the older `+build linux` variant of get.go: same
buffer update, but the escape sequence is emitted unconditionally when
echoing, even for an erased width of 0. -/
def eraseStepV0 (n : Nat) (result : List Nat) (echo : Bool) : List Nat × List Nat :=
  let out :=
    if echo then escSeq (runeCount (result.drop (result.length - n)))
    else []
  (result.take (result.length - n), out)

/-- The backwards scan of the `vWerase` case: Go's
`for pos = len(result)-1; pos >= 0; pos--` loop body, walked over the
reversed buffer while tracking `pos`; returns the `pos` at which the loop
breaks, or `-1` when it runs to completion. -/
def werasePosAux : List Nat → Int → Bool → Int
  | [], _, _ => -1
  | b :: rest, pos, flag =>
    if !flag ∧ b ≠ space then werasePosAux rest (pos - 1) true
    else if flag ∧ b = space then pos
    else werasePosAux rest (pos - 1) flag

def werasePos (result : List Nat) : Int :=
  werasePosAux result.reverse ((result.length : Int) - 1) false

/-! ## One iteration of the GetBytes read loop -/

/-- Error component of the pair `GetBytes` returns: `nil`, `io.EOF`, the
error of a failed `os.Stdin.Read`, or the error of a failed
`IoctlGetTermios`. -/
inductive GetErr
  | none
  | eof
  | readError
  | getConfigError
deriving DecidableEq

/-- Result of one loop body: either the loop breaks (carrying the buffer,
the error value and the stdout bytes so far) or it continues with an
updated buffer and output. -/
inductive StepRes
  | stop (result : List Nat) (err : GetErr) (out : List Nat)
  | cont (result : List Nat) (out : List Nat)
deriving DecidableEq

/-- One successful-read iteration of the `GetBytes` loop: `data` are the
bytes `os.Stdin.Read` wrote into the fresh 4-byte buffer, `result` the
accumulated line, `out` the stdout bytes so far. Mirrors the `switch` on
`buf[0]` of the source. -/
def step (c : Ctrl) (echo : EchoMode) (limit : Nat) (data : List Nat)
    (result out : List Nat) : StepRes :=
  let cnt := min data.length 4
  let buf := data.take 4 ++ List.replicate (4 - cnt) 0
  let b0 := buf.headD 0
  if b0 = c.vEof then
    .stop result (if result.length = 0 then .eof else .none) out
  else if b0 = linefeed then
    .stop result .none out
  else if b0 = c.vErase then
    if 0 < result.length then
      let n := (decodeLastRune result).2
      let p := eraseStep n result (decide (echo ≠ EchoMode.none))
      .cont p.1 (out ++ p.2)
    else .cont result out
  else if b0 = c.vKill then
    let p := eraseStep result.length result (decide (echo ≠ EchoMode.none))
    .cont p.1 (out ++ p.2)
  else if b0 = c.vWerase then
    if result.length = 0 then .cont result out
    else
      let pos := werasePos result
      let n := ((result.length : Int) - (pos + 1)).toNat
      let p := eraseStep n result (decide (echo ≠ EchoMode.none))
      .cont p.1 (out ++ p.2)
  else
    let r := (decodeRune buf).1
    if isGraphic r then
      let eOut : List Nat :=
        match echo with
        | .normal => buf.take cnt
        | .mask => [maskChar]
        | .none => []
      let result2 := result ++ buf.take cnt
      if 0 < limit ∧ runeCount result2 = limit then
        .stop result2 .none (out ++ eOut)
      else .cont result2 (out ++ eOut)
    else .cont result out

/-! ## The full read loop over an input trace -/

/-- One event delivered by `os.Stdin.Read`: either `data` bytes placed in
the 4-byte read buffer (the read blocked until they arrived), or a device
read error. -/
inductive ReadEvent
  | bytes (data : List Nat)
  | fail
deriving DecidableEq

/-- Outcome of running the loop against a finite input trace: `done` when
the loop breaks or returns (also carrying the unconsumed trace suffix),
`pending` when the trace is exhausted while the loop still blocks on the
next read. -/
inductive LoopRes
  | done (result : List Nat) (err : GetErr) (out : List Nat) (remaining : List ReadEvent)
  | pending (result : List Nat) (out : List Nat)
deriving DecidableEq

/-- The `GetBytes` read loop driven by an input trace. -/
def loopRun (c : Ctrl) (echo : EchoMode) (limit : Nat) :
    List ReadEvent → List Nat → List Nat → LoopRes
  | [], result, out => .pending result out
  | .fail :: rest, result, out => .done result .readError out rest
  | .bytes data :: rest, result, out =>
    match step c echo limit data result out with
    | .stop r e o => .done r e o rest
    | .cont r o => loopRun c echo limit rest r o

/-! ## One GetBytes invocation -/

/-- The external world of one invocation: the device's discipline
configuration at call time, whether the two ioctls the code issues before
the loop fail (`IoctlGetTermios`, and the `IoctlSetTermios` that applies
raw mode, whose result the code discards), and the stdin trace. The
restoring `IoctlSetTermios` of the deferred call is modelled as taking
effect: it re-applies a configuration the device already accepted. -/
structure Env where
  config : Termios
  getFails : Bool
  setRawFails : Bool
  input : List ReadEvent
deriving DecidableEq

/-- Observable outcome of one `GetBytes` call: either it returned (with
the returned byte slice, the returned error, the device configuration
after the call, the bytes written to stdout, and the unconsumed input), or
it is still blocked reading (with the device configuration it holds while
blocked). -/
inductive CallResult
  | returned (result : List Nat) (err : GetErr) (config : Termios)
      (output : List Nat) (remaining : List ReadEvent)
  | blocked (config : Termios)
deriving DecidableEq

/-- One invocation of `GetBytes echo limit` against environment `env`:
capture the configuration (failure returns at once, before the `defer` is
installed), apply the derived raw configuration (result discarded by the
source), run the loop, and restore the captured configuration on every
return path via the deferred `IoctlSetTermios`. -/
def GetBytesRun (echo : EchoMode) (limit : Nat) (env : Env) : CallResult :=
  if env.getFails then
    .returned [] .getConfigError env.config [] env.input
  else
    let old := env.config
    let raw := rawFrom old
    let during := if env.setRawFails then old else raw
    match loopRun (ctrlOf raw) echo limit env.input [] [] with
    | .done result err out rem => .returned result err old out rem
    | .pending _ _ => .blocked during

/-! ## The IsTerminal predicate (term.go) -/

/-- `IsTerminal`: Go returns `err != unix.ENOTTY` where `err` is the error
of `IoctlGetTermios(fd)`; the argument models that error (`Option.none`
for a successful ioctl, `some e` for errno `e`). -/
def IsTerminal (ioctlErr : Option Nat) : Bool := decide (ioctlErr ≠ some ENOTTY)

/-! ## Derived notions used to state the properties -/

/-- The bytes the accept path of the loop writes to stdout for one accepted
input unit `u`: `u` itself under normal echo, one mask glyph under masked
echo, nothing under silent echo. -/
def echoAccept (echo : EchoMode) (u : List Nat) : List Nat :=
  match echo with
  | .normal => u
  | .mask => [maskChar]
  | .none => []

/-- `u` is one complete encoded character `r`: nonempty, at most `UTFMax`
bytes, and decoding any extension of `u` yields exactly `r` spanning
exactly the bytes of `u`. -/
def IsUnit (u : List Nat) (r : Nat) : Prop :=
  u ≠ [] ∧ u.length ≤ 4 ∧ ∀ v : List Nat, decodeRune (u ++ v) = (r, u.length)

/-- Every element of `units` is one complete encoded character. -/
def UnitsOk (units : List (List Nat)) : Prop := ∀ u ∈ units, ∃ r, IsUnit u r

/-- A graphic-character input unit that is not classified as any of the
control bytes of `c` nor as the line terminator. -/
def GoodUnit (c : Ctrl) (u : List Nat) : Prop :=
  ∃ r, IsUnit u r ∧ isGraphic r = true ∧
    u.headD 0 ≠ c.vEof ∧ u.headD 0 ≠ linefeed ∧ u.headD 0 ≠ c.vErase ∧
    u.headD 0 ≠ c.vKill ∧ u.headD 0 ≠ c.vWerase

/-- A concrete discipline configuration with the standard Linux control
characters: `VEOF = ^D`, `VERASE = DEL`, `VKILL = ^U`, `VWERASE = ^W`. -/
def cfg0 : Termios :=
  { iflag := 0x500, oflag := 0x5, cflag := 0xBF, lflag := 0x8A3B,
    cc := [3, 28, 127, 21, 4, 0, 1, 0, 17, 19, 26, 0, 18, 15, 23, 22, 0] }

/-- The characters of `"foo bar "` typed one at a time. -/
def fooBarSpEvents : List ReadEvent :=
  [102, 111, 111, 32, 98, 97, 114, 32].map (fun b => .bytes [b])

/-! ## Supporting lemmas -/

theorem decodeRune_snd_pos (p : List Nat) (h : p ≠ []) : 1 ≤ (decodeRune p).2 := by
  match p with
  | b0 :: t =>
    simp only [decodeRune]
    repeat' split
    all_goals simp

theorem runeCountAux_stable (fuel : Nat) : ∀ p : List Nat, p.length ≤ fuel →
    runeCountAux fuel p = runeCountAux p.length p := by
  induction fuel using Nat.strong_induction_on with
  | _ fuel ih =>
    intro p hp
    match fuel, p with
    | 0, [] => rfl
    | 0, _ :: _ => simp at hp
    | f + 1, [] => rfl
    | f + 1, b :: t =>
      have hsz : 1 ≤ (decodeRune (b :: t)).2 := decodeRune_snd_pos _ (by simp)
      have hp' : t.length ≤ f := by simpa using hp
      have hlen : ((b :: t).drop (decodeRune (b :: t)).2).length ≤ t.length := by
        simp only [List.length_drop, List.length_cons]
        omega
      simp only [runeCountAux, List.length_cons]
      rw [ih f (by omega) _ (le_trans hlen hp'),
        ih t.length (by omega) _ hlen]

theorem runeCount_ne_nil (p : List Nat) (h : p ≠ []) :
    runeCount p = 1 + runeCount (p.drop (decodeRune p).2) := by
  match p with
  | b :: t =>
    have hsz : 1 ≤ (decodeRune (b :: t)).2 := decodeRune_snd_pos _ (by simp)
    have hlen : ((b :: t).drop (decodeRune (b :: t)).2).length ≤ t.length := by
      simp only [List.length_drop, List.length_cons]
      omega
    show runeCountAux (b :: t).length (b :: t) = _
    simp only [List.length_cons, runeCountAux]
    rw [runeCountAux_stable t.length _ hlen]
    rfl

theorem runeCount_unit_append (u : List Nat) (r : Nat) (v : List Nat)
    (hu : IsUnit u r) : runeCount (u ++ v) = 1 + runeCount v := by
  obtain ⟨hne, _, hdec⟩ := hu
  rw [runeCount_ne_nil (u ++ v) (by simp [hne]), hdec v]
  simp [List.drop_left]

theorem runeCount_flatten (units : List (List Nat)) (h : UnitsOk units) :
    runeCount units.flatten = units.length := by
  induction units with
  | nil => rfl
  | cons u us ih =>
    obtain ⟨r, hr⟩ := h u (by simp)
    have h' : UnitsOk us := fun w hw => h w (by simp [hw])
    simp only [List.flatten_cons, List.length_cons]
    rw [runeCount_unit_append u r _ hr, ih h']
    omega

theorem runeCount_flatten_snoc (consumed : List (List Nat)) (u : List Nat) (r : Nat)
    (hc : UnitsOk consumed) (hu : IsUnit u r) :
    runeCount (consumed.flatten ++ u) = consumed.length + 1 := by
  have hflat : (consumed ++ [u]).flatten = consumed.flatten ++ u := by simp
  have hok : UnitsOk (consumed ++ [u]) := by
    intro w hw
    rcases List.mem_append.mp hw with h1 | h1
    · exact hc w h1
    · simp only [List.mem_singleton] at h1
      exact ⟨r, h1 ▸ hu⟩
  calc runeCount (consumed.flatten ++ u) = runeCount (consumed ++ [u]).flatten := by
        rw [hflat]
    _ = (consumed ++ [u]).length := runeCount_flatten _ hok
    _ = consumed.length + 1 := by simp

theorem flatten_mask_replicate (units : List (List Nat)) :
    (units.map (echoAccept .mask)).flatten = List.replicate units.length maskChar := by
  induction units with
  | nil => rfl
  | cons u us ih => simp [echoAccept, List.replicate_succ, ih]

theorem loopRun_append (c : Ctrl) (echo : EchoMode) (limit : Nat) :
    ∀ (xs ys : List ReadEvent) (res out : List Nat),
      loopRun c echo limit (xs ++ ys) res out =
        match loopRun c echo limit xs res out with
        | .pending r o => loopRun c echo limit ys r o
        | .done r e o rem => .done r e o (rem ++ ys) := by
  intro xs
  induction xs with
  | nil => intro ys res out; rfl
  | cons x xs ih =>
    intro ys res out
    cases x with
    | fail => rfl
    | bytes data =>
      show loopRun c echo limit (.bytes data :: (xs ++ ys)) res out = _
      simp only [loopRun]
      cases step c echo limit data res out with
      | stop r e o => rfl
      | cont r o => exact ih ys r o

theorem step_eof (c : Ctrl) (echo : EchoMode) (limit : Nat) (d res out : List Nat)
    (hd : d.headD 0 = c.vEof) (hne : d ≠ []) :
    step c echo limit d res out =
      .stop res (if res.length = 0 then .eof else .none) out := by
  match d with
  | a :: t =>
    have hhead : ((a :: t).take 4 ++
        List.replicate (4 - min (a :: t).length 4) 0).headD 0 = a := rfl
    simp only [step, hhead]
    rw [if_pos (show a = c.vEof from hd)]

theorem buf_headD (a : Nat) (t : List Nat) :
    ((a :: t).take 4 ++ List.replicate (4 - min (a :: t).length 4) 0).headD 0 = a := rfl

theorem step_linefeed (c : Ctrl) (echo : EchoMode) (limit : Nat) (res out : List Nat)
    (h : c.vEof ≠ linefeed) :
    step c echo limit [linefeed] res out = .stop res .none out := by
  simp only [step, buf_headD]
  rw [if_neg (fun hc => h hc.symm), if_pos trivial]

theorem step_graphic (c : Ctrl) (echo : EchoMode) (limit : Nat)
    (u result out : List Nat) (r : Nat)
    (h1 : IsUnit u r) (h2 : isGraphic r = true)
    (h3 : u.headD 0 ≠ c.vEof) (h4 : u.headD 0 ≠ linefeed)
    (h5 : u.headD 0 ≠ c.vErase) (h6 : u.headD 0 ≠ c.vKill)
    (h7 : u.headD 0 ≠ c.vWerase) :
    step c echo limit u result out =
      if 0 < limit ∧ runeCount (result ++ u) = limit then
        .stop (result ++ u) .none (out ++ echoAccept echo u)
      else .cont (result ++ u) (out ++ echoAccept echo u) := by
  obtain ⟨hne, hlen, hdec⟩ := h1
  have htake : u.take 4 = u := List.take_of_length_le hlen
  have hmin : min u.length 4 = u.length := Nat.min_eq_left hlen
  have hhead : (u ++ List.replicate (4 - u.length) 0).headD 0 = u.headD 0 := by
    match u, hne with
    | a :: t, _ => rfl
  have hdecbuf : decodeRune (u ++ List.replicate (4 - u.length) 0) = (r, u.length) :=
    hdec _
  have htakecnt : (u ++ List.replicate (4 - u.length) 0).take u.length = u :=
    List.take_left u _
  simp only [step, htake, hmin, hhead, hdecbuf, htakecnt]
  rw [if_neg h3, if_neg h4, if_neg h5, if_neg h6, if_neg h7]
  simp only [h2, if_true]
  cases echo <;> rfl

theorem loopRun_graphic_pending (c : Ctrl) (echo : EchoMode) (rest : List ReadEvent) :
    ∀ (units : List (List Nat)) (res out : List Nat),
      (∀ u ∈ units, GoodUnit c u) →
      loopRun c echo 0 (units.map .bytes ++ rest) res out =
        loopRun c echo 0 rest (res ++ units.flatten)
          (out ++ (units.map (echoAccept echo)).flatten) := by
  intro units
  induction units with
  | nil => intro res out _; simp
  | cons u us ih =>
    intro res out hg
    obtain ⟨r, hr, hgr, h3, h4, h5, h6, h7⟩ := hg u (by simp)
    show loopRun c echo 0 (.bytes u :: (us.map .bytes ++ rest)) res out = _
    simp only [loopRun]
    rw [step_graphic c echo 0 u res out r hr hgr h3 h4 h5 h6 h7,
      if_neg (by simp)]
    show loopRun c echo 0 (us.map .bytes ++ rest) (res ++ u) (out ++ echoAccept echo u) = _
    rw [ih (res ++ u) (out ++ echoAccept echo u) (fun w hw => hg w (by simp [hw]))]
    simp

theorem loopRun_graphic_limit (c : Ctrl) (echo : EchoMode) (N : Nat)
    (rest : List ReadEvent) :
    ∀ (units consumed : List (List Nat)) (out : List Nat),
      UnitsOk consumed → (∀ u ∈ units, GoodUnit c u) → units ≠ [] →
      consumed.length + units.length = N →
      loopRun c echo N (units.map .bytes ++ rest) consumed.flatten out =
        .done (consumed.flatten ++ units.flatten) .none
          (out ++ (units.map (echoAccept echo)).flatten) rest := by
  intro units
  induction units with
  | nil => intro consumed out _ _ hne _; exact absurd rfl hne
  | cons u us ih =>
    intro consumed out hok hg hne hN
    obtain ⟨r, hr, hgr, h3, h4, h5, h6, h7⟩ := hg u (by simp)
    have hcount : runeCount (consumed.flatten ++ u) = consumed.length + 1 :=
      runeCount_flatten_snoc consumed u r hok hr
    show loopRun c echo N (.bytes u :: (us.map .bytes ++ rest)) consumed.flatten out = _
    simp only [loopRun]
    rw [step_graphic c echo N u consumed.flatten out r hr hgr h3 h4 h5 h6 h7]
    cases us with
    | nil =>
      have hNval : consumed.length + 1 = N := by simpa using hN
      rw [if_pos ⟨by omega, by rw [hcount, hNval]⟩]
      simp
    | cons w ws =>
      have hlt : consumed.length + 1 < N := by
        simp only [List.length_cons] at hN
        omega
      rw [if_neg (by rw [hcount]; omega)]
      have hok' : UnitsOk (consumed ++ [u]) := by
        intro x hx
        rcases List.mem_append.mp hx with h1 | h1
        · exact hok x h1
        · simp only [List.mem_singleton] at h1
          exact ⟨r, h1 ▸ hr⟩
      have hflat : (consumed ++ [u]).flatten = consumed.flatten ++ u := by simp
      have := ih (consumed ++ [u]) (out ++ echoAccept echo u) hok'
        (fun x hx => hg x (by simp [hx])) (by simp)
        (by simp only [List.length_append, List.length_cons, List.length_nil]
              at hN ⊢
            omega)
      rw [hflat] at this
      show loopRun c echo N ((w :: ws).map .bytes ++ rest)
        (consumed.flatten ++ u) (out ++ echoAccept echo u) = _
      rw [this]
      simp

theorem GetBytesRun_loop (echo : EchoMode) (limit : Nat) (cfg : Termios)
    (sf : Bool) (input : List ReadEvent) :
    GetBytesRun echo limit ⟨cfg, false, sf, input⟩ =
      match loopRun (ctrlOf (rawFrom cfg)) echo limit input [] [] with
      | .done result err out rem => .returned result err cfg out rem
      | .pending _ _ => .blocked (if sf then cfg else rawFrom cfg) := rfl

/-! ## The claims -/

/-- C1: every `GetBytes` invocation that returns — normal completion,
end-of-input, or device-read error — leaves the device discipline
configuration bit-for-bit equal to the configuration captured at the start
of the call. -/
theorem getbytes_restores_config (echo : EchoMode) (limit : Nat) (env : Env)
    (res : List Nat) (e : GetErr) (cfg : Termios) (out : List Nat)
    (rem : List ReadEvent)
    (h : GetBytesRun echo limit env = .returned res e cfg out rem) :
    cfg = env.config := by
  by_cases hg : env.getFails = true
  · simp only [GetBytesRun, if_pos hg] at h
    injection h with h1 h2 h3
    exact h3.symm
  · simp only [GetBytesRun, if_neg hg] at h
    cases hl : loopRun (ctrlOf (rawFrom env.config)) echo limit env.input [] [] with
    | done r' e' o' rm' =>
      rw [hl] at h
      injection h with h1 h2 h3
      exact h3.symm
    | pending r' o' =>
      rw [hl] at h
      exact absurd h (by simp)

/-- C1 witness: a concrete run that ends in a device-read error returns
with the configuration restored to `cfg0`. -/
theorem getbytes_restores_config_witness :
    GetBytesRun .normal 0 ⟨cfg0, false, false, [.fail]⟩ =
      .returned [] .readError cfg0 [] [] ∧
    cfg0 = (⟨cfg0, false, false, [.fail]⟩ : Env).config :=
  ⟨by decide, getbytes_restores_config .normal 0 ⟨cfg0, false, false, [.fail]⟩
    [] .readError cfg0 [] [] (by decide)⟩

/-- C2 counterexample: a device-read failure after the character `a` was
accepted makes `GetBytes` return the accumulated buffer `[97]` alongside
the error — the bytes gathered so far are returned, not discarded. -/
theorem getbytes_readfail_counterexample :
    GetBytesRun .none 0 ⟨cfg0, false, false, [.bytes [97], .fail]⟩ =
      .returned [97] .readError cfg0 [] [] ∧
    ([97] : List Nat) ≠ [] := by decide

/-- C2 amended: when the device read fails, `GetBytes` propagates the
failure and returns the buffer accumulated up to that point together with
the error (the terminal configuration is still restored). -/
theorem getbytes_readfail_returns_partial (echo : EchoMode) (limit : Nat)
    (cfg : Termios) (lead rest : List ReadEvent) (res out : List Nat)
    (hp : loopRun (ctrlOf (rawFrom cfg)) echo limit lead [] [] = .pending res out) :
    GetBytesRun echo limit ⟨cfg, false, false, lead ++ .fail :: rest⟩ =
      .returned res .readError cfg out rest := by
  rw [GetBytesRun_loop, loopRun_append, hp]
  rfl

/-- C2 amended, witness: the concrete trace `b`-then-failure returns
`[98]` with the read error. -/
theorem getbytes_readfail_returns_partial_witness :
    GetBytesRun .none 0 ⟨cfg0, false, false, [.bytes [98], .fail]⟩ =
      .returned [98] .readError cfg0 [] [] :=
  getbytes_readfail_returns_partial .none 0 cfg0 [.bytes [98]] [] [98] [] (by decide)

/-- C3 counterexample: with the standard control characters, typing
`"foo bar "` followed by one word-erase (`^W`) and a newline returns
`"foo "` — a single word-erase removes the trailing space and the word
together, not just the trailing space, so the buffer after one word-erase
is not `"foo bar"`. -/
theorem werase_foobar_counterexample :
    GetBytesRun .none 0 ⟨cfg0, false, false,
        fooBarSpEvents ++ [.bytes [23], .bytes [10]]⟩ =
      .returned [102, 111, 111, 32] .none cfg0 [] [] ∧
    ([102, 111, 111, 32] : List Nat) ≠ [102, 111, 111, 32, 98, 97, 114] := by
  decide

/-- C3 amended: one word-erase on `"foo bar "` leaves `"foo "` (the
trailing space and the word are removed together); a second word-erase
leaves the empty buffer. -/
theorem werase_foobar_amended :
    GetBytesRun .none 0 ⟨cfg0, false, false,
        fooBarSpEvents ++ [.bytes [23], .bytes [10]]⟩ =
      .returned [102, 111, 111, 32] .none cfg0 [] [] ∧
    GetBytesRun .none 0 ⟨cfg0, false, false,
        fooBarSpEvents ++ [.bytes [23], .bytes [23], .bytes [10]]⟩ =
      .returned [] .none cfg0 [] [] := by decide

/-- C4: a read that delivers the single byte `0xC3` — the first byte of an
unfinished two-byte character, which does not decode to one complete
graphic character — is nevertheless appended to the buffer, because
decoding the zero-padded read buffer yields the replacement character
U+FFFD and `unicode.IsGraphic` accepts it; the returned buffer `[0xC3]`
ends in a partial multi-byte character, violating the claimed invariant. -/
theorem append_partial_byte_bug :
    GetBytesRun .none 0 ⟨cfg0, false, false, [.bytes [0xC3], .bytes [10]]⟩ =
      .returned [0xC3] .none cfg0 [] [] ∧
    decodeRune [0xC3, 0, 0, 0] = (0xFFFD, 1) ∧
    isGraphic 0xFFFD = true := by decide

theorem isUnit_ascii (b : Nat) (hb : b < 0x80) : IsUnit [b] b := by
  refine ⟨by simp, by simp, fun v => ?_⟩
  show decodeRune (b :: v) = (b, [b].length)
  simp only [decodeRune, List.length_cons, List.length_nil]
  rw [if_pos hb]

theorem isUnit_eacute : IsUnit [195, 169] 233 := by
  refine ⟨by simp, by simp, fun v => ?_⟩
  show decodeRune (195 :: 169 :: v) = (233, 2)
  rfl

theorem goodUnit_ascii (c : Ctrl) (b : Nat) (hb : b < 0x80)
    (hg : isGraphic b = true) (h3 : b ≠ c.vEof) (h4 : b ≠ linefeed)
    (h5 : b ≠ c.vErase) (h6 : b ≠ c.vKill) (h7 : b ≠ c.vWerase) :
    GoodUnit c [b] :=
  ⟨b, isUnit_ascii b hb, hg, h3, h4, h5, h6, h7⟩

/-- C5: for any input trace of graphic-character units that avoid the
control bytes, followed by the line terminator, `GetBytes` returns exactly
the concatenation of those units with no error and leaves the rest of the
trace unconsumed; under masked echo the display output is exactly one
placeholder glyph per accepted character, regardless of the byte length of
each character. -/
theorem getbytes_graphic_concat_mask (echo : EchoMode) (cfg : Termios)
    (units : List (List Nat)) (rest : List ReadEvent)
    (hunits : ∀ u ∈ units, GoodUnit (ctrlOf (rawFrom cfg)) u)
    (heof : (ctrlOf (rawFrom cfg)).vEof ≠ linefeed) :
    GetBytesRun echo 0
        ⟨cfg, false, false, units.map .bytes ++ .bytes [linefeed] :: rest⟩ =
      .returned units.flatten .none cfg
        ((units.map (echoAccept echo)).flatten) rest ∧
    (echo = .mask →
      (units.map (echoAccept echo)).flatten =
        List.replicate units.length maskChar) := by
  constructor
  · rw [GetBytesRun_loop,
      loopRun_graphic_pending (ctrlOf (rawFrom cfg)) echo _ units [] [] hunits]
    simp only [loopRun, step_linefeed _ echo 0 _ _ heof, List.nil_append]
  · intro he
    subst he
    exact flatten_mask_replicate units

/-- C5 witness: the two-byte character `é` then `a` then newline under
masked echo returns the three buffer bytes and writes exactly two mask
glyphs. -/
theorem getbytes_graphic_concat_mask_witness :
    GetBytesRun .mask 0 ⟨cfg0, false, false,
        [.bytes [195, 169], .bytes [97], .bytes [10]]⟩ =
      .returned [195, 169, 97] .none cfg0 [42, 42] [] := by
  have h := getbytes_graphic_concat_mask .mask cfg0 [[195, 169], [97]] []
    (by intro u hu
        simp only [List.mem_cons, List.not_mem_nil, or_false] at hu
        rcases hu with rfl | rfl
        · exact ⟨233, isUnit_eacute, by decide, by decide, by decide, by decide,
            by decide, by decide⟩
        · exact goodUnit_ascii _ 97 (by decide) (by decide) (by decide)
            (by decide) (by decide) (by decide) (by decide))
    (by decide)
  exact h.1

/-- C6: an end-of-input byte received while the buffer is empty makes
`GetBytes` return the empty buffer with `io.EOF`; received while the
buffer is non-empty it completes normally (like a line terminator),
returning the buffer with no error. -/
theorem getbytes_eof_dispatch (echo : EchoMode) (limit : Nat) (cfg : Termios)
    (lead rest : List ReadEvent) (d res out : List Nat)
    (hp : loopRun (ctrlOf (rawFrom cfg)) echo limit lead [] [] = .pending res out)
    (hd : d.headD 0 = (ctrlOf (rawFrom cfg)).vEof) (hne : d ≠ []) :
    GetBytesRun echo limit ⟨cfg, false, false, lead ++ .bytes d :: rest⟩ =
      .returned res (if res.length = 0 then .eof else .none) cfg out rest := by
  rw [GetBytesRun_loop, loopRun_append, hp]
  simp only [loopRun, step_eof _ echo limit d res out hd hne]

/-- C6 witness: `^D` as the first byte returns the empty buffer with the
end-of-input outcome. -/
theorem getbytes_eof_dispatch_witness :
    GetBytesRun .normal 0 ⟨cfg0, false, false, [.bytes [4]]⟩ =
      .returned [] .eof cfg0 [] [] := by
  have h := getbytes_eof_dispatch .normal 0 cfg0 [] [] [4] [] [] rfl
    (by decide) (by decide)
  exact h

/-- C7: with a character limit `N > 0`, `GetBytes` completes exactly upon
the `N`-th accepted character with no terminator byte, leaving every later
input unit unconsumed; with limit `0` the same character-only trace never
completes the call (the limit check is disabled and the loop keeps
reading). -/
theorem getbytes_limit_completion (echo : EchoMode) (cfg : Termios) (N : Nat)
    (units : List (List Nat)) (rest : List ReadEvent)
    (hunits : ∀ u ∈ units, GoodUnit (ctrlOf (rawFrom cfg)) u)
    (hN : units.length = N) (hpos : 0 < N) :
    GetBytesRun echo N ⟨cfg, false, false, units.map .bytes ++ rest⟩ =
      .returned units.flatten .none cfg
        ((units.map (echoAccept echo)).flatten) rest ∧
    GetBytesRun echo 0 ⟨cfg, false, false, units.map .bytes⟩ =
      .blocked (rawFrom cfg) := by
  constructor
  · rw [GetBytesRun_loop]
    have h := loopRun_graphic_limit (ctrlOf (rawFrom cfg)) echo N rest units [] []
      (fun u hu => absurd hu (List.not_mem_nil u)) hunits
      (by intro hc; subst hc; simp only [List.length_nil] at hN; omega)
      (by simpa using hN)
    simp only [List.flatten_nil, List.nil_append] at h
    rw [h]
  · rw [GetBytesRun_loop]
    have h2 := loopRun_graphic_pending (ctrlOf (rawFrom cfg)) echo [] units [] []
      hunits
    simp only [List.append_nil, List.nil_append] at h2
    rw [h2]
    rfl

/-- C7 witness: limit 2 completes on the second character `b`, leaving the
trailing `c` event unread; the same two characters with limit 0 leave the
call still blocked in raw mode. -/
theorem getbytes_limit_completion_witness :
    GetBytesRun .none 2 ⟨cfg0, false, false,
        [.bytes [97], .bytes [98], .bytes [99]]⟩ =
      .returned [97, 98] .none cfg0 [] [.bytes [99]] ∧
    GetBytesRun .none 0 ⟨cfg0, false, false, [.bytes [97], .bytes [98]]⟩ =
      .blocked (rawFrom cfg0) := by
  have h := getbytes_limit_completion .none cfg0 2 [[97], [98]] [.bytes [99]]
    (by intro u hu
        simp only [List.mem_cons, List.not_mem_nil, or_false] at hu
        rcases hu with rfl | rfl
        · exact goodUnit_ascii _ 97 (by decide) (by decide) (by decide)
            (by decide) (by decide) (by decide) (by decide)
        · exact goodUnit_ascii _ 98 (by decide) (by decide) (by decide)
            (by decide) (by decide) (by decide) (by decide))
    rfl (by decide)
  exact ⟨h.1, h.2⟩

/-- C8: at a computed erase width of 0 the `erase` of the older
`+build linux` variant still writes the degenerate cursor-left-by-zero
sequence `ESC [ 0 D ESC [ K`, while the multi-platform variant writes
nothing, as the claim requires. -/
theorem erase_zero_width_bug :
    eraseStepV0 0 [] true = ([], [0x1B, 91, 48, 68, 0x1B, 91, 75]) ∧
    eraseStep 0 [] true = ([], []) := by decide

/-- C9 counterexample: with the raw-mode `IoctlSetTermios` failing,
`GetBytes` neither surfaces a configuration error nor aborts: it proceeds
to read input and returns the typed character with a nil error. -/
theorem setraw_error_ignored_counterexample :
    GetBytesRun .none 0 ⟨cfg0, false, true, [.bytes [97], .bytes [10]]⟩ =
      .returned [97] .none cfg0 [] [] ∧
    GetErr.none ≠ GetErr.getConfigError := by decide

/-- C9 amended: a failure of `IoctlGetTermios` is surfaced to the caller
and aborts the read with no input consumed; a failure of the
`IoctlSetTermios` that applies the raw configuration is ignored — every
returning run is unchanged by it. -/
theorem config_error_handling_amended :
    (∀ (echo : EchoMode) (limit : Nat) (env : Env), env.getFails = true →
      GetBytesRun echo limit env =
        .returned [] .getConfigError env.config [] env.input) ∧
    (∀ (echo : EchoMode) (limit : Nat) (cfg : Termios) (input : List ReadEvent)
      (res : List Nat) (e : GetErr) (c2 : Termios) (out : List Nat)
      (rem : List ReadEvent),
      GetBytesRun echo limit ⟨cfg, false, true, input⟩ =
          .returned res e c2 out rem ↔
        GetBytesRun echo limit ⟨cfg, false, false, input⟩ =
          .returned res e c2 out rem) := by
  constructor
  · intro echo limit env hg
    simp only [GetBytesRun, if_pos hg]
  · intro echo limit cfg input res e c2 out rem
    rw [GetBytesRun_loop, GetBytesRun_loop]
    cases hl : loopRun (ctrlOf (rawFrom cfg)) echo limit input [] [] <;> simp

/-- C9 amended, witness: a concrete get-configuration failure returns the
configuration error with nothing read. -/
theorem config_error_handling_amended_witness :
    GetBytesRun .normal 0 ⟨cfg0, true, false, []⟩ =
      .returned [] .getConfigError cfg0 [] [] :=
  config_error_handling_amended.1 .normal 0 ⟨cfg0, true, false, []⟩ rfl

/-- C10: `IsTerminal` returns `false` exactly when the get-configuration
ioctl failed with `ENOTTY`; on success, and on any other error such as
`EBADF`, it returns `true`. -/
theorem isterminal_iff_enotty (e : Option Nat) :
    IsTerminal e = false ↔ e = some ENOTTY := by
  simp [IsTerminal]

end GoTerm
